import Mathlib

/-!
# Tasmota: the compressed web fragment `HTTP_SCRIPT_MODULE_TEMPLATE`

A verification development over `tasmota/html_compressed/HTTP_SCRIPT_MODULE_TEMPLATE.h`.
The header declares

* `HTTP_SCRIPT_MODULE_TEMPLATE_SIZE`, a `size_t` constant (line 6);
* `HTTP_SCRIPT_MODULE_TEMPLATE_COMPRESSED`, a `const char[]` in program memory,
  initialised from 23 adjacent string literals made of `\xHH` escapes only
  (lines 7-29);
* `HTTP_SCRIPT_MODULE_TEMPLATE`, which expands to
  `Decompress(HTTP_SCRIPT_MODULE_TEMPLATE_COMPRESSED,HTTP_SCRIPT_MODULE_TEMPLATE_SIZE).c_str()`
  (line 31).

Bytes are natural numbers below 256.  A `const char[]` initialised from a string
literal is the literal's bytes followed by one terminating NUL.
-/

namespace Tasmota

/-! ## The constants of the header -/

/-- Line 6: `const size_t HTTP_SCRIPT_MODULE_TEMPLATE_SIZE = 589;`. -/
def HTTP_SCRIPT_MODULE_TEMPLATE_SIZE : Nat := 589

/-- The figure in the comment of line 6: `// compressed size 441 bytes`. -/
def commentCompressedSize : Nat := 441

/-- Lines 7-29: the 23 adjacent string literals of the initialiser, one list per
source line, every `\xHH` escape read as one byte. -/
def literalPieces : List (List Nat) :=
  [
   [0x33, 0xBF, 0xAC, 0xF1, 0xD4, 0x2B, 0xC7, 0x83, 0x02, 0xF8, 0x3A, 0xDC, 0xE4, 0x1B, 0x3B, 0xBA, 0x75, 0x1A, 0x8E, 0xF1],
   [0xED, 0x33, 0xBF, 0xAC, 0x3E, 0x09, 0x81, 0x8B, 0x1A, 0xFA, 0x8E, 0x81, 0xFD, 0xDD, 0x32, 0x61, 0x31, 0xAF, 0xA8, 0xEE],
   [0x9F, 0x78, 0x32, 0xB7, 0x38, 0xFB, 0x3B, 0xC7, 0x8C, 0x3A, 0x53, 0x36, 0x51, 0x07, 0x9D, 0x4F, 0xA8, 0xF9, 0xA7, 0x83],
   [0x51, 0xD2, 0xC6, 0x0C, 0x7C, 0x21, 0x06, 0x2B, 0x42, 0x10, 0xEE, 0xE1, 0xDE, 0x3C, 0x1E, 0xE0, 0x44, 0xCD, 0xB2, 0x8E],
   [0xE8, 0xF1, 0xD5, 0xE0, 0x41, 0xCD, 0xAC, 0xF9, 0xE3, 0xF4, 0x71, 0x91, 0xB0, 0xC1, 0x86, 0x71, 0x9D, 0x44, 0x38, 0xF8],
   [0x71, 0x9D, 0x44, 0x19, 0xD4, 0x30, 0xEA, 0x08, 0xEA, 0xA3, 0xE1, 0xAB, 0xC7, 0x74, 0xFB, 0x3C, 0x85, 0x1F, 0x67, 0x6C],
   [0x78, 0xEF, 0x1D, 0x42, 0xCF, 0x9E, 0x3F, 0x47, 0x19, 0x1B, 0x0E, 0x37, 0x08, 0xC1, 0xE0, 0x23, 0xE5, 0x1D, 0x01, 0x07],
   [0x4D, 0xF1, 0xD0, 0x27, 0xC3, 0xD4, 0x28, 0xF0, 0x63, 0x3E, 0x77, 0x74, 0xF8, 0x11, 0xE3, 0x4F, 0x1A, 0x75, 0x9D, 0x67],
   [0x78, 0xF6, 0x8C, 0x04, 0x5B, 0xC7, 0xBD, 0xA7, 0x59, 0xC8, 0x7B, 0xE7, 0x42, 0x19, 0x7F, 0x7D, 0x45, 0xD8, 0x23, 0x3C],
   [0x0C, 0x3A, 0x7D, 0x8D, 0xC3, 0x36, 0x08, 0x3B, 0x70, 0x24, 0xE0, 0x87, 0x78, 0xF0, 0x7B, 0x82, 0x3E, 0x0A, 0x04, 0xAC],
   [0xC8, 0xE3, 0x3C, 0x16, 0x9E, 0x81, 0x1E, 0x34, 0xED, 0x9D, 0xB3, 0xBC, 0x7B, 0x43, 0x3E, 0x0A, 0xF1, 0xEF, 0x69, 0xEF],
   [0x82, 0x17, 0x2A, 0x01, 0xE7, 0x8D, 0x30, 0x77, 0x6C, 0xF8, 0x7C, 0x0C, 0xEF, 0x1E, 0xD1, 0xC0, 0x89, 0x50, 0xE3, 0x70],
   [0x8C, 0x1E, 0x07, 0x7D, 0xD9, 0xA1, 0xE0, 0xF7, 0x1E, 0xEF, 0x1F, 0x87, 0xE1, 0xF0, 0xE6, 0x90, 0x23, 0x64, 0x47, 0xC1],
   [0xC0, 0x85, 0x91, 0xB3, 0xBB, 0xA7, 0x6C, 0xE4, 0x3A, 0x8A, 0x8E, 0xF1, 0xE0, 0xF7, 0x31, 0xC7, 0x74, 0xFB, 0x14, 0x7D],
   [0x9D, 0xB1, 0xE3, 0xBC, 0x74, 0x33, 0xB0, 0x85, 0xB3, 0xE0, 0xB3, 0xB6, 0x72, 0x1E, 0x0A, 0x8E, 0x9E, 0xA3, 0x20, 0x99],
   [0xD0, 0xCF, 0x7D, 0xA3, 0xB4, 0x2D, 0xA3, 0x23, 0xE1, 0xDD, 0x1C, 0x7E, 0x1C, 0x67, 0x78, 0xED, 0x1F, 0x67, 0xD9, 0xE6],
   [0x7D, 0x90, 0xAD, 0x10, 0x47, 0xC7, 0xD8, 0x23, 0x71, 0x49, 0xE3, 0x43, 0xBB, 0xE3, 0xA8, 0x78, 0x10, 0xF8, 0xFE, 0xCF],
   [0x1D, 0x3E, 0xC6, 0x05, 0x61, 0xB3, 0xBA, 0x76, 0x1E, 0xE3, 0x94, 0x76, 0x10, 0xF1, 0xD4, 0x7B, 0x0F, 0x40, 0x41, 0xE0],
   [0xF9, 0x02, 0x0E, 0x7A, 0x7D, 0x9E, 0xC3, 0xBC, 0x08, 0xD7, 0x4E, 0x59, 0xD8, 0x43, 0xC7, 0x51, 0xEC, 0x3D, 0x0E, 0xC0],
   [0x41, 0xBC, 0x7E, 0x1E, 0xC3, 0xBC, 0x78, 0x63, 0x8E, 0xE9, 0xF6, 0x3C, 0x7D, 0x9D, 0xB1, 0xE3, 0xBC, 0x74, 0xDE, 0xE7],
   [0xF2, 0x14, 0x54, 0x43, 0x48, 0x23, 0xE6, 0x02, 0x35, 0x20, 0x41, 0xC8, 0x4E, 0xE8, 0xF1, 0xE8, 0x71, 0x23, 0xBC, 0x76],
   [0x88, 0x10, 0xF9, 0x10, 0x3C, 0xFC, 0x78, 0xD3, 0x2A, 0x01, 0x83, 0x40, 0xF6, 0x82, 0x17, 0x26, 0x47, 0x83, 0xDC, 0x7B],
   [0x8D]
  ]

/-- Adjacent string literals are concatenated into one literal. -/
def stringLiteral : List Nat := literalPieces.flatten

/-- A `char` array initialised from a string literal with no explicit bound: the
bytes of the literal and then the implicit terminating NUL. -/
def charArrayOfLiteral (lit : List Nat) : List Nat := lit ++ [0]

/-- Lines 7-29: `const char HTTP_SCRIPT_MODULE_TEMPLATE_COMPRESSED[] PROGMEM = "..."`. -/
def HTTP_SCRIPT_MODULE_TEMPLATE_COMPRESSED : List Nat := charArrayOfLiteral stringLiteral

/-- The data bytes of a `char` array made from a literal: all but the final NUL. -/
def dataBytes (arr : List Nat) : List Nat := arr.dropLast

/-- C `strlen`: the number of bytes before the first NUL. -/
def strlen : List Nat → Nat
  | [] => 0
  | b :: rest => if b = 0 then 0 else strlen rest + 1

/-! ## The call site of line 31

`Decompress` and `String::c_str` are not declared in this header; they are taken
as parameters.  A C++ function called on values is a function of those values, so
`Decompress` is a function of the array and the size.  -/

/-- The read-only storage the expression of line 31 refers to: the array and the
size constant. -/
structure Store where
  /-- Contents of `HTTP_SCRIPT_MODULE_TEMPLATE_COMPRESSED`. -/
  compressed : List Nat
  /-- Value of `HTTP_SCRIPT_MODULE_TEMPLATE_SIZE`. -/
  size : Nat
deriving DecidableEq, Repr

/-- The storage as the header initialises it. -/
def flash : Store :=
  { compressed := HTTP_SCRIPT_MODULE_TEMPLATE_COMPRESSED
    size := HTTP_SCRIPT_MODULE_TEMPLATE_SIZE }

/-- The actual arguments of the one call in line 31, in order: the array, then
the size constant. -/
def decompressArgs (s : Store) : List Nat × Nat := (s.compressed, s.size)

/-- Line 31: `Decompress(HTTP_SCRIPT_MODULE_TEMPLATE_COMPRESSED,
HTTP_SCRIPT_MODULE_TEMPLATE_SIZE).c_str()`, evaluated in a store.  The expression
reads the two constants, calls `Decompress` on them and takes `c_str()` of the
result; it has no assignment, so the store it returns is the one it was given. -/
def HTTP_SCRIPT_MODULE_TEMPLATE {σ ρ : Type} (Decompress : List Nat → Nat → σ)
    (c_str : σ → ρ) (s : Store) : ρ × Store :=
  (c_str (Decompress (decompressArgs s).1 (decompressArgs s).2), s)

/-! ## Escape structure of the stored bytes -/

/-- Checks that every byte `0x2A` of a byte list has a successor and that the
successor is `0x01` or `0x02`. -/
def escapesWellFormed : List Nat → Bool
  | [] => true
  | b :: rest =>
    (b != 0x2A ||
      (match rest with
       | [] => false
       | n :: _ => n == 0x01 || n == 0x02)) && escapesWellFormed rest

/-! ## The codec of the design description

The header's comment names the build-time compressor and line 31 calls
`Decompress`; neither is part of this header, and the header does not say which
quantity the second argument of `Decompress` is.  The encoder and the decoder are
modelled here from the design description of the codec: a static-table,
bit-oriented encoder and decoder with modes and back-references.  What the
description leaves open (the tables themselves, the two field widths, the bit
order inside a byte, the filler bit, whether a full output truncates or fails) is a
field of `Codec`, so every statement about the codec holds for each choice.  None
of them is about the stored bytes of the header: the deployed tables and the text
that was compressed are not known here. -/

/-- Modelled from the spec: `Mode`, "an enumerated decoder/encoder state selecting
which CodeTable is active".  A mode is the index of its table. -/
abbrev Mode := Nat

/-- Modelled from the spec: the symbols of a code table, "a character or a control
code"; the control codes are the reserved "switch-mode, start-back-reference,
repeat-last-character, and end-of-string".  Characters are bytes. -/
inductive Symbol where
  | literal (c : Nat)
  | switchMode (m : Mode)
  | startBackReference
  | repeatLastCharacter
  | endOfString
deriving DecidableEq, Repr

/-- Modelled from the spec: `Bitstream`, "an ordered sequence of bits". -/
abbrev Bitstream := List Bool

/-- Modelled from the spec: `CodeTable`, "an ordered mapping from symbol (a character
or a control code) to a variable-length bit code (code value + code length in
bits)".  The code is the list of its bits, in reading order. -/
abbrev CodeTable := List (Symbol × List Bool)

/-- Modelled from the spec: `BackReference`, "an (offset, length) pair meaning copy
`length` characters starting `offset` characters before the current output
position". -/
structure BackReference where
  offset : Nat
  length : Nat
deriving DecidableEq, Repr

/-- Modelled from the spec: the decoder's failure kinds of the error taxonomy,
`TruncatedInput`, `InvalidBackReference`, `OutputTooSmall`. -/
inductive DecodeError where
  | TruncatedInput
  | InvalidBackReference
  | OutputTooSmall
deriving DecidableEq, Repr

/-- Modelled from the spec: what is "baked into the codec" and shared by encoder
and decoder.  `tables` holds one table per mode; `defaultMode` is the mode decoding
starts in; `offsetBits` and `lengthBits` are the "small fixed-width fields" of a
back-reference; `msbFirst` is the "MSB-first or LSB-first" convention of bits in a
byte; `fillerBit` is the "codec-defined filler" of the final byte; `truncates` is
the configuration choice between truncating and failing with `OutputTooSmall`. -/
structure Codec where
  tables : List CodeTable
  defaultMode : Mode
  offsetBits : Nat
  lengthBits : Nat
  msbFirst : Bool
  fillerBit : Bool
  truncates : Bool

/-- Modelled from the spec: the table "selected by a current mode"; a mode without
a table has the empty table. -/
def table (codec : Codec) (m : Mode) : CodeTable := codec.tables.getD m []

/-- Modelled from the spec: the symbol→code direction of a table, used by the
encoder: the code of the first entry for the symbol. -/
def codeOf (t : CodeTable) (s : Symbol) : Option (List Bool) :=
  (t.find? (fun e => decide (e.1 = s))).map (fun e => e.2)

/-- Modelled from the spec: the code→symbol direction of a table, used by the
decoder: the symbol of the first entry with exactly these bits. -/
def symbolOf (t : CodeTable) (code : List Bool) : Option Symbol :=
  (t.find? (fun e => decide (e.2 = code))).map (fun e => e.1)

/-- Modelled from the spec: the number a run of bits stands for, first bit most
significant (the value of a fixed-width field). -/
def bitsValue (bits : Bitstream) : Nat :=
  bits.foldl (fun acc b => 2 * acc + b.toNat) 0

/-- Modelled from the spec: a fixed-width field, the low `w` bits of `v`, most
significant first. -/
def writeField : Nat → Nat → Bitstream
  | 0, _ => []
  | w + 1, v => writeField w (v / 2) ++ [decide (v % 2 = 1)]

/-- Modelled from the spec: reading a fixed-width field ("read offset-field bits,
then length-field bits"): the value and the bits after it, or nothing when fewer
than `w` bits are left. -/
def readField (w : Nat) (bits : Bitstream) : Option (Nat × Bitstream) :=
  if w ≤ bits.length then some (bitsValue (bits.take w), bits.drop w) else none

/-- Modelled from the spec: the eight bits of a byte in stream order, under the
codec's bit-order convention. -/
def byteToBits (msbFirst : Bool) (b : Nat) : Bitstream :=
  if msbFirst then writeField 8 (b % 256) else (writeField 8 (b % 256)).reverse

/-- Modelled from the spec: the byte made of eight bits in stream order. -/
def bitsToByte (msbFirst : Bool) (chunk : Bitstream) : Nat :=
  bitsValue (if msbFirst then chunk else chunk.reverse)

/-- Modelled from the spec: the bitstream held by a byte sequence. -/
def unpack (msbFirst : Bool) (bytes : List Nat) : Bitstream :=
  (bytes.map (byteToBits msbFirst)).flatten

/-- Modelled from the spec: `n` bytes from a bitstream, eight bits each; the
encoder "pads the final byte with codec-defined filler bits". -/
def packChunks (msbFirst fillerBit : Bool) : Nat → Bitstream → List Nat
  | 0, _ => []
  | n + 1, bits =>
    bitsToByte msbFirst (bits.take 8 ++ List.replicate (8 - (bits.take 8).length) fillerBit)
      :: packChunks msbFirst fillerBit n (bits.drop 8)

/-- Modelled from the spec: the bytes of a bitstream, the last one padded. -/
def pack (msbFirst fillerBit : Bool) (bits : Bitstream) : List Nat :=
  packChunks msbFirst fillerBit ((bits.length + 7) / 8) bits

/-- Modelled from the spec: resolving the next symbol "while reading bits one at a
time": after each bit the bits read so far (`acc` and the new bit) are looked up
in the active table.  Nothing is returned when the bits run out first. -/
def resolve (t : CodeTable) : List Bool → Bitstream → Option (Symbol × Bitstream)
  | _, [] => none
  | acc, b :: rest =>
    match symbolOf t (acc ++ [b]) with
    | some sym => some (sym, rest)
    | none => resolve t (acc ++ [b]) rest

/-- Modelled from the spec: how a run of the decoder ends: the contents of the
output buffer (what was written, in order; the output cursor is its length) and
the failure, if any. -/
structure Outcome where
  buffer : List Nat
  error : Option DecodeError
deriving DecidableEq, Repr

/-- Modelled from the spec: the result of one decoder step: go on with a mode, an
output buffer and the remaining bits (the three pieces of "O(1) scalar state": bit
cursor, current mode, output cursor), or stop. -/
inductive Step where
  | next (mode : Mode) (out : List Nat) (bits : Bitstream)
  | stop (o : Outcome)
deriving DecidableEq, Repr

/-- Modelled from the spec: one step of the decoder of §4.2.  It stops when the
output capacity is reached (truncating configuration) or when no bit is left;
otherwise it resolves the next symbol in the active table.  End-of-string stops.
A mode switch changes the mode.  A literal is appended and the mode kept.
Repeat-last-character appends the last character of the output and is invalid on
an empty output.  A back-reference reads the offset field, then the length field,
and copies `length` characters starting `offset` characters before the output
position; it is invalid when that range starts before the output or ends after
its current end.  A character is written only below the capacity: when one does
not fit, the step stops, with what fitted written, as a truncation or with
`OutputTooSmall` according to the configuration.  Bits running out inside a symbol
or a field give `TruncatedInput`. -/
def decodeStep (codec : Codec) (cap : Nat) (mode : Mode) (out : List Nat) (bits : Bitstream) :
    Step :=
  if codec.truncates = true ∧ cap ≤ out.length then .stop ⟨out, none⟩
  else if bits = [] then .stop ⟨out, none⟩
  else
    match resolve (table codec mode) [] bits with
    | none => .stop ⟨out, some .TruncatedInput⟩
    | some (.endOfString, _) => .stop ⟨out, none⟩
    | some (.switchMode m, rest) => .next m out rest
    | some (.literal c, rest) =>
      if out.length < cap then .next mode (out ++ [c]) rest
      else .stop ⟨out, some .OutputTooSmall⟩
    | some (.repeatLastCharacter, rest) =>
      match out.getLast? with
      | none => .stop ⟨out, some .InvalidBackReference⟩
      | some c =>
        if out.length < cap then .next mode (out ++ [c]) rest
        else .stop ⟨out, some .OutputTooSmall⟩
    | some (.startBackReference, rest) =>
      match readField codec.offsetBits rest with
      | none => .stop ⟨out, some .TruncatedInput⟩
      | some (offset, rest1) =>
        match readField codec.lengthBits rest1 with
        | none => .stop ⟨out, some .TruncatedInput⟩
        | some (length, rest2) =>
          if length ≤ offset ∧ offset ≤ out.length then
            if out.length + length ≤ cap then
              .next mode (out ++ (out.drop (out.length - offset)).take length) rest2
            else
              .stop ⟨out ++ ((out.drop (out.length - offset)).take length).take (cap - out.length),
                if codec.truncates = true then none else some .OutputTooSmall⟩
          else .stop ⟨out, some .InvalidBackReference⟩

/-- Modelled from the spec: the decoder's loop, at most `fuel` steps.  Every step
that goes on has consumed a bit, so more fuel than bits is never used up (see
`decodeLoop_fuel`). -/
def decodeLoop (codec : Codec) (cap : Nat) : Nat → Mode → List Nat → Bitstream → Outcome
  | 0, _, out, _ => ⟨out, some .TruncatedInput⟩
  | fuel + 1, mode, out, bits =>
    match decodeStep codec cap mode out bits with
    | .stop o => o
    | .next m out1 bits1 => decodeLoop codec cap fuel m out1 bits1

/-- Modelled from the spec: the decoder run on its three arguments, with the state
of the output buffer at the end.  It reads the first `declared_length` bytes of
`compressed`, "starting in a default mode" with an empty output. -/
def decodeBuffer (codec : Codec) (compressed : List Nat)
    (declared_length output_capacity : Nat) : Outcome :=
  decodeLoop codec output_capacity
    ((unpack codec.msbFirst (compressed.take declared_length)).length + 1)
    codec.defaultMode [] (unpack codec.msbFirst (compressed.take declared_length))

/-- Modelled from the spec: `decode(compressed: bytes, declared_length:
count_of_bytes, output_capacity: count_of_characters) -> text or error`. -/
def decode (codec : Codec) (compressed : List Nat) (declared_length output_capacity : Nat) :
    Except DecodeError (List Nat) :=
  match decodeBuffer codec compressed declared_length output_capacity with
  | ⟨text, none⟩ => .ok text
  | ⟨_, some e⟩ => .error e

/-- Modelled from the spec: the first mode whose table holds the character ("the
character belongs to a different table than currently active"). -/
def findMode (codec : Codec) (c : Nat) : Option Mode :=
  (List.range codec.tables.length).find?
    (fun m => (codeOf (table codec m) (.literal c)).isSome)

/-- Modelled from the spec: a character is in the supported character set when
some table holds it. -/
def supported (codec : Codec) (c : Nat) : Bool := (findMode codec c).isSome

/-- Modelled from the spec: emitting one literal: "emit the literal's table code,
switching mode first if the character belongs to a different table than currently
active".  Returns the bits and the mode afterwards. -/
def literalCode (codec : Codec) (mode : Mode) (c : Nat) : Option (Bitstream × Mode) :=
  match codeOf (table codec mode) (.literal c) with
  | some code => some (code, mode)
  | none =>
    match findMode codec c with
    | none => none
    | some m =>
      match codeOf (table codec mode) (.switchMode m), codeOf (table codec m) (.literal c) with
      | some sw, some code => some (sw ++ code, m)
      | _, _ => none

/-- Modelled from the spec: "emitting the same span as literal characters plus
mode-switch overhead": the bits of a span written as literals only. -/
def literalSpan (codec : Codec) : Mode → List Nat → Option (Bitstream × Mode)
  | mode, [] => some ([], mode)
  | mode, c :: cs =>
    match literalCode codec mode c with
    | none => none
    | some (b1, m1) =>
      match literalSpan codec m1 cs with
      | none => none
      | some (b2, m2) => some (b1 ++ b2, m2)

/-- Modelled from the spec: the length of the longest common beginning of two
character sequences (the "straightforward scan" of the back-reference search). -/
def commonLength : List Nat → List Nat → Nat
  | a :: as, b :: bs => if a = b then commonLength as bs + 1 else 0
  | _, _ => 0

/-- Modelled from the spec: the back-reference at a given offset: as many
characters as agree with the text ahead, at most what the length field holds
("bounded candidate length (matching the length-field width)"). -/
def candidate (codec : Codec) (done rest : List Nat) (offset : Nat) : BackReference :=
  ⟨offset, min (commonLength (done.drop (done.length - offset)) rest) (2 ^ codec.lengthBits - 1)⟩

/-- Modelled from the spec: "the longest valid back-reference", searched over "a
bounded trailing window (matching the decoder's offset-field width)"; of equally
long ones the nearest.  `done` is the text already encoded, `rest` the text ahead. -/
def longestBackReference (codec : Codec) (done rest : List Nat) : Option BackReference :=
  let best :=
    ((List.range (min done.length (2 ^ codec.offsetBits - 1))).map (fun o => o + 1)).foldl
      (fun (best : BackReference) o =>
        if best.length < (candidate codec done rest o).length then candidate codec done rest o
        else best)
      ⟨0, 0⟩
  if best.length = 0 then none else some best

/-- Modelled from the spec: the bits of a back-reference: the start-back-reference
code of the active table, the offset field, the length field. -/
def backReferenceBits (codec : Codec) (mode : Mode) (r : BackReference) : Option Bitstream :=
  match codeOf (table codec mode) .startBackReference with
  | none => none
  | some code =>
    some (code ++ writeField codec.offsetBits r.offset ++ writeField codec.lengthBits r.length)

/-- Modelled from the spec: "prefer the longest valid back-reference if it yields a
shorter encoding than emitting the same span as literal characters plus
mode-switch overhead". -/
def chooseBackReference (codec : Codec) (mode : Mode) (done rest : List Nat) :
    Option (BackReference × Bitstream) :=
  match longestBackReference codec done rest with
  | none => none
  | some r =>
    match backReferenceBits codec mode r, literalSpan codec mode (rest.take r.length) with
    | some bits, some (lits, _) => if bits.length < lits.length then some (r, bits) else none
    | _, _ => none

/-- Modelled from the spec: the encoder's loop of §4.3 over the text ahead, at most
`fuel` steps: at each position a back-reference if one is preferred, otherwise the
literal; at the end of the text "the end-of-string code". -/
def encodeLoop (codec : Codec) : Nat → Mode → List Nat → List Nat → Option Bitstream
  | 0, _, _, _ => none
  | _ + 1, mode, _, [] => codeOf (table codec mode) .endOfString
  | fuel + 1, mode, done, c :: cs =>
    match chooseBackReference codec mode done (c :: cs) with
    | some (r, bits) =>
      (encodeLoop codec fuel mode (done ++ (c :: cs).take r.length)
        ((c :: cs).drop r.length)).map (fun more => bits ++ more)
    | none =>
      match literalCode codec mode c with
      | none => none
      | some (bits, m) =>
        (encodeLoop codec fuel m (done ++ [c]) cs).map (fun more => bits ++ more)

/-- Modelled from the spec: `encode(text) -> compressed bytes`; nothing for a
text with a character outside the supported set. -/
def encode (codec : Codec) (text : List Nat) : Option (List Nat) :=
  (encodeLoop codec (text.length + 1) codec.defaultMode [] text).map
    (pack codec.msbFirst codec.fillerBit)

/-- Modelled from the spec: the invariants of the static tables: the default mode
has a table; every table is prefix-free ("no code is a prefix of another within
the same table"); every code has at least one bit; every table reserves an
end-of-string code and a switch code to each other mode. -/
def WellFormed (codec : Codec) : Prop :=
  codec.defaultMode < codec.tables.length ∧
  (∀ t ∈ codec.tables, ∀ e1 ∈ t, ∀ e2 ∈ t, e1.2 <+: e2.2 → e1 = e2) ∧
  (∀ t ∈ codec.tables, ∀ e ∈ t, e.2 ≠ []) ∧
  (∀ t ∈ codec.tables, (codeOf t .endOfString).isSome = true) ∧
  (∀ m < codec.tables.length, ∀ m1 < codec.tables.length, m1 ≠ m →
    (codeOf (table codec m) (.switchMode m1)).isSome = true)

/-- A small codec used to run the definitions: mode 0 holds the letters `a`, `b`,
mode 1 the digits `0`, `1`; offsets have 4 bits and lengths 3. -/
def tinyCodec : Codec where
  tables :=
    [ [(.literal 97, [false, false]), (.literal 98, [false, true]),
       (.switchMode 1, [true, false, false]), (.startBackReference, [true, false, true]),
       (.repeatLastCharacter, [true, true, false]), (.endOfString, [true, true, true])],
      [(.literal 48, [false, false]), (.literal 49, [false, true]),
       (.switchMode 0, [true, false, false]), (.startBackReference, [true, false, true]),
       (.repeatLastCharacter, [true, true, false]), (.endOfString, [true, true, true])] ]
  defaultMode := 0
  offsetBits := 4
  lengthBits := 3
  msbFirst := true
  fillerBit := false
  truncates := false

/-- Modelled from the spec: the output buffer after a step, whether it goes on or
stops. -/
def Step.buffer : Step → List Nat
  | .next _ out _ => out
  | .stop o => o.buffer

/-- Modelled from the spec: the decoder's loop from a state, with as much fuel as
the state has bits and one more. -/
def run (codec : Codec) (cap : Nat) (mode : Mode) (out : List Nat) (bits : Bitstream) :
    Outcome :=
  decodeLoop codec cap (bits.length + 1) mode out bits

/-- Modelled from the spec: what a back-reference the encoder emits must satisfy
for the decoder to accept it and to copy exactly the text ahead: a positive length
within the offset, an offset within the text already encoded, both within their
fields, and the referenced characters equal to the text ahead. -/
def ValidBackReference (codec : Codec) (done rest : List Nat) (r : BackReference) : Prop :=
  0 < r.length ∧ r.length ≤ r.offset ∧ r.offset ≤ done.length ∧
    r.offset < 2 ^ codec.offsetBits ∧ r.length < 2 ^ codec.lengthBits ∧
    r.length ≤ rest.length ∧
    (done.drop (done.length - r.offset)).take r.length = rest.take r.length

/-- A text over the letters and digits of `tinyCodec` with a repeated run: its
encoding uses literals, a mode switch and a back-reference. -/
def tinyText : List Nat := [97, 98, 97, 98, 97, 98, 97, 98, 97, 98, 97, 98, 48, 49, 97]

/-! ## Auxiliary facts -/

theorem dataBytes_charArrayOfLiteral (lit : List Nat) :
    dataBytes (charArrayOfLiteral lit) = lit := by
  simp [dataBytes, charArrayOfLiteral]

theorem strlen_charArrayOfLiteral (lit : List Nat) (h : ∀ b ∈ lit, b ≠ 0) :
    strlen (charArrayOfLiteral lit) = lit.length := by
  induction lit with
  | nil => simp [charArrayOfLiteral, strlen]
  | cons b rest ih =>
    have hb : b ≠ 0 := h b (List.mem_cons_self _ _)
    have hr : ∀ c ∈ rest, c ≠ 0 := fun c hc => h c (List.mem_cons_of_mem _ hc)
    have ih2 := ih hr
    simp only [charArrayOfLiteral] at ih2 ⊢
    simp [strlen, hb, ih2]

theorem escapesWellFormed_spec (l : List Nat) (h : escapesWellFormed l = true) :
    ∀ i : Nat, l[i]? = some 0x2A →
      i + 1 < l.length ∧ (l[i + 1]? = some 0x01 ∨ l[i + 1]? = some 0x02) := by
  induction l with
  | nil => intro i hi; simp at hi
  | cons b rest ih =>
    intro i hi
    simp only [escapesWellFormed, Bool.and_eq_true, Bool.or_eq_true] at h
    obtain ⟨hb, hrest⟩ := h
    cases i with
    | zero =>
      simp only [List.getElem?_cons_zero, Option.some.injEq] at hi
      subst hi
      cases rest with
      | nil => simp at hb
      | cons n tl =>
        simp only [bne_self_eq_false, Bool.false_eq_true, Bool.or_eq_true, beq_iff_eq,
          false_or] at hb
        refine ⟨by simp, ?_⟩
        rcases hb with hb | hb
        · left; simp [hb]
        · right; simp [hb]
    | succ j =>
      simp only [List.getElem?_cons_succ] at hi
      obtain ⟨h1, h2⟩ := ih hrest j hi
      refine ⟨by simpa using h1, ?_⟩
      simpa using h2

theorem stringLiteral_length : stringLiteral.length = 441 := by
  set_option maxRecDepth 100000 in rfl

theorem stringLiteral_nonzero : ∀ b ∈ stringLiteral, b ≠ 0 := by
  set_option maxRecDepth 100000 in decide

theorem stringLiteral_bytes : ∀ b ∈ stringLiteral, b < 256 := by
  set_option maxRecDepth 100000 in decide

theorem stringLiteral_escapes : escapesWellFormed stringLiteral = true := by
  set_option maxRecDepth 100000 in decide

/-! ## Bits, fields and bytes -/

theorem writeField_length (w v : Nat) : (writeField w v).length = w := by
  induction w generalizing v with
  | zero => rfl
  | succ w ih => simp [writeField, ih]

theorem bitsValue_concat (bits : Bitstream) (b : Bool) :
    bitsValue (bits ++ [b]) = 2 * bitsValue bits + b.toNat := by
  simp [bitsValue, List.foldl_append]

theorem bitsValue_writeField (w v : Nat) : bitsValue (writeField w v) = v % 2 ^ w := by
  induction w generalizing v with
  | zero => simp [writeField, bitsValue, Nat.mod_one]
  | succ w ih =>
    rw [writeField, bitsValue_concat, ih, pow_succ, Nat.mul_comm (2 ^ w) 2, Nat.mod_mul]
    rcases Nat.mod_two_eq_zero_or_one v with h | h <;> simp [h]
    omega

theorem bitsValue_lt (bits : Bitstream) : bitsValue bits < 2 ^ bits.length := by
  induction bits using List.reverseRecOn with
  | nil => simp [bitsValue]
  | append_singleton bits b ih =>
    rw [bitsValue_concat, List.length_append, List.length_singleton, pow_succ]
    cases b <;> simp <;> omega

theorem writeField_bitsValue (bits : Bitstream) :
    writeField bits.length (bitsValue bits) = bits := by
  induction bits using List.reverseRecOn with
  | nil => rfl
  | append_singleton bits b ih =>
    rw [bitsValue_concat, List.length_append, List.length_singleton, writeField]
    have h1 : (2 * bitsValue bits + b.toNat) / 2 = bitsValue bits := by
      cases b <;> simp
      omega
    have h2 : decide ((2 * bitsValue bits + b.toNat) % 2 = 1) = b := by
      cases b <;> simp
      omega
    rw [h1, h2, ih]

theorem readField_writeField (w v : Nat) (rest : Bitstream) (h : v < 2 ^ w) :
    readField w (writeField w v ++ rest) = some (v, rest) := by
  have hl := writeField_length w v
  simp [readField, hl, List.take_append_of_le_length, List.drop_append_of_le_length,
    bitsValue_writeField, Nat.mod_eq_of_lt h]

theorem readField_length (w : Nat) (bits rest : Bitstream) (v : Nat)
    (h : readField w bits = some (v, rest)) : rest.length ≤ bits.length := by
  unfold readField at h
  split at h
  · simp only [Option.some.injEq, Prod.mk.injEq] at h
    rw [← h.2, List.length_drop]; omega
  · simp at h

theorem byteToBits_length (msbFirst : Bool) (b : Nat) : (byteToBits msbFirst b).length = 8 := by
  unfold byteToBits
  split <;> simp [writeField_length]

theorem byteToBits_bitsToByte (msbFirst : Bool) (chunk : Bitstream) (h : chunk.length = 8) :
    byteToBits msbFirst (bitsToByte msbFirst chunk) = chunk := by
  unfold byteToBits bitsToByte
  cases msbFirst
  · have hl : chunk.reverse.length = 8 := by simp [h]
    have hlt := bitsValue_lt chunk.reverse
    rw [hl] at hlt
    have := writeField_bitsValue chunk.reverse
    rw [hl] at this
    have h256 : bitsValue chunk.reverse % 256 = bitsValue chunk.reverse :=
      Nat.mod_eq_of_lt hlt
    simp [h256, this]
  · have hlt := bitsValue_lt chunk
    rw [h] at hlt
    have := writeField_bitsValue chunk
    rw [h] at this
    have h256 : bitsValue chunk % 256 = bitsValue chunk := Nat.mod_eq_of_lt hlt
    simp [h256, this]

theorem unpack_append (msbFirst : Bool) (xs ys : List Nat) :
    unpack msbFirst (xs ++ ys) = unpack msbFirst xs ++ unpack msbFirst ys := by
  simp [unpack]

theorem unpack_packChunks (msbFirst fillerBit : Bool) (n : Nat) (bits : Bitstream)
    (h : bits.length ≤ 8 * n) :
    unpack msbFirst (packChunks msbFirst fillerBit n bits) =
      bits ++ List.replicate (8 * n - bits.length) fillerBit := by
  induction n generalizing bits with
  | zero =>
    have : bits = [] := List.length_eq_zero.mp (by omega)
    subst this
    simp [packChunks, unpack]
  | succ n ih =>
    have hd : (bits.drop 8).length ≤ 8 * n := by rw [List.length_drop]; omega
    have hu : unpack msbFirst (packChunks msbFirst fillerBit (n + 1) bits) =
        byteToBits msbFirst (bitsToByte msbFirst
          (bits.take 8 ++ List.replicate (8 - (bits.take 8).length) fillerBit)) ++
        unpack msbFirst (packChunks msbFirst fillerBit n (bits.drop 8)) := by
      simp [packChunks, unpack]
    rw [hu, ih _ hd, byteToBits_bitsToByte]
    · by_cases h8 : 8 ≤ bits.length
      · have ht : (bits.take 8).length = 8 := by simp [h8]
        rw [ht]
        simp only [Nat.sub_self, List.replicate_zero, List.append_nil, List.length_drop]
        rw [← List.append_assoc, List.take_append_drop]
        congr 2
        omega
      · have ht : bits.take 8 = bits := List.take_of_length_le (by omega)
        have hdr : bits.drop 8 = [] := List.drop_of_length_le (by omega)
        rw [ht, hdr]
        simp only [List.length_nil, Nat.sub_zero, List.nil_append, List.append_assoc]
        rw [← List.replicate_add]
        congr 2
        omega
    · simp only [List.length_append, List.length_take, List.length_replicate]
      omega

theorem unpack_pack (msbFirst fillerBit : Bool) (bits : Bitstream) :
    ∃ k, unpack msbFirst (pack msbFirst fillerBit bits) = bits ++ List.replicate k fillerBit :=
  ⟨_, unpack_packChunks msbFirst fillerBit _ bits (by omega)⟩

/-! ## Resolving symbols -/

theorem codeOf_mem (t : CodeTable) (s : Symbol) (code : List Bool)
    (h : codeOf t s = some code) : (s, code) ∈ t := by
  unfold codeOf at h
  cases hf : t.find? (fun e => decide (e.1 = s)) with
  | none => simp [hf] at h
  | some e =>
    rw [hf] at h
    simp only [Option.map_some', Option.some.injEq] at h
    have h1 := List.find?_some hf
    have h2 := List.mem_of_find?_eq_some hf
    simp only [decide_eq_true_eq] at h1
    obtain ⟨a, b⟩ := e
    simp only at h h1
    subst h h1
    exact h2

theorem symbolOf_mem (t : CodeTable) (s : Symbol) (code : List Bool)
    (h : symbolOf t code = some s) : (s, code) ∈ t := by
  unfold symbolOf at h
  cases hf : t.find? (fun e => decide (e.2 = code)) with
  | none => simp [hf] at h
  | some e =>
    rw [hf] at h
    simp only [Option.map_some', Option.some.injEq] at h
    have h1 := List.find?_some hf
    have h2 := List.mem_of_find?_eq_some hf
    simp only [decide_eq_true_eq] at h1
    obtain ⟨a, b⟩ := e
    simp only at h h1
    subst h h1
    exact h2

theorem symbolOf_isSome_of_mem (t : CodeTable) (s : Symbol) (code : List Bool)
    (h : (s, code) ∈ t) : ∃ s1, symbolOf t code = some s1 := by
  unfold symbolOf
  cases hf : t.find? (fun e => decide (e.2 = code)) with
  | none =>
    have := List.find?_eq_none.mp hf (s, code) h
    simp at this
  | some e => exact ⟨e.1, rfl⟩

theorem symbolOf_of_codeOf (t : CodeTable)
    (hpf : ∀ e1 ∈ t, ∀ e2 ∈ t, e1.2 <+: e2.2 → e1 = e2)
    (s : Symbol) (code : List Bool) (h : codeOf t s = some code) :
    symbolOf t code = some s := by
  have hm := codeOf_mem t s code h
  obtain ⟨s1, hs1⟩ := symbolOf_isSome_of_mem t s code hm
  have hm1 := symbolOf_mem t s1 code hs1
  have := hpf _ hm1 _ hm (List.prefix_refl _)
  simp only [Prod.mk.injEq, and_true] at this
  rw [hs1, this]

theorem symbolOf_proper (t : CodeTable)
    (hpf : ∀ e1 ∈ t, ∀ e2 ∈ t, e1.2 <+: e2.2 → e1 = e2)
    (s : Symbol) (code p : List Bool) (h : codeOf t s = some code)
    (hp : p <+: code) (hne : p ≠ code) : symbolOf t p = none := by
  cases hs : symbolOf t p with
  | none => rfl
  | some s1 =>
    have hm1 := symbolOf_mem t s1 p hs
    have := hpf _ hm1 _ (codeOf_mem t s code h) hp
    simp only [Prod.mk.injEq] at this
    exact absurd this.2 hne

theorem resolve_length_lt (t : CodeTable) (acc : List Bool) (bits rest : Bitstream)
    (sym : Symbol) (h : resolve t acc bits = some (sym, rest)) : rest.length < bits.length := by
  induction bits generalizing acc with
  | nil => simp [resolve] at h
  | cons b bs ih =>
    unfold resolve at h
    split at h
    · simp only [Option.some.injEq, Prod.mk.injEq] at h
      rw [← h.2]; simp
    · have := ih _ h
      simp only [List.length_cons]; omega

theorem resolve_aux (t : CodeTable)
    (hpf : ∀ e1 ∈ t, ∀ e2 ∈ t, e1.2 <+: e2.2 → e1 = e2)
    (s : Symbol) (code : List Bool) (h : codeOf t s = some code) (rest : Bitstream)
    (remaining acc : List Bool) (hcode : acc ++ remaining = code) (hrem : remaining ≠ []) :
    resolve t acc (remaining ++ rest) = some (s, rest) := by
  induction remaining generalizing acc with
  | nil => exact absurd rfl hrem
  | cons b rem ih =>
    rw [List.cons_append, resolve]
    by_cases hr : rem = []
    · subst hr
      rw [hcode, symbolOf_of_codeOf t hpf s code h]
      rfl
    · have hp : (acc ++ [b]) <+: code := ⟨rem, by rw [← hcode]; simp⟩
      have hne : acc ++ [b] ≠ code := by
        intro heq
        rw [← hcode] at heq
        have hlen := congrArg List.length heq
        simp only [List.length_append, List.length_cons, List.length_nil] at hlen
        exact hr (List.length_eq_zero.mp (by omega))
      rw [symbolOf_proper t hpf s code _ h hp hne]
      exact ih (acc ++ [b]) (by rw [← hcode]; simp) hr

theorem resolve_codeOf (t : CodeTable)
    (hpf : ∀ e1 ∈ t, ∀ e2 ∈ t, e1.2 <+: e2.2 → e1 = e2)
    (hne : ∀ e ∈ t, e.2 ≠ [])
    (s : Symbol) (code : List Bool) (h : codeOf t s = some code) (rest : Bitstream) :
    resolve t [] (code ++ rest) = some (s, rest) :=
  resolve_aux t hpf s code h rest code [] rfl (hne _ (codeOf_mem t s code h))

/-! ## The decoder's steps -/

theorem decodeStep_buffer_le (codec : Codec) (cap : Nat) (mode : Mode) (out : List Nat)
    (bits : Bitstream) (h : out.length ≤ cap) :
    (decodeStep codec cap mode out bits).buffer.length ≤ cap := by
  unfold decodeStep
  repeat' split
  all_goals simp only [Step.buffer, List.length_append, List.length_take, List.length_drop,
    List.length_singleton]
  all_goals omega

theorem decodeStep_bits_lt (codec : Codec) (cap : Nat) (mode : Mode) (out : List Nat)
    (bits : Bitstream) (m : Mode) (out1 : List Nat) (bits1 : Bitstream)
    (h : decodeStep codec cap mode out bits = .next m out1 bits1) :
    bits1.length < bits.length := by
  unfold decodeStep at h
  repeat' split at h
  all_goals try contradiction
  all_goals simp only [Step.next.injEq] at h
  all_goals obtain ⟨-, -, h3⟩ := h
  all_goals subst h3
  all_goals have hr := resolve_length_lt _ _ _ _ _ (by assumption)
  · exact hr
  · exact hr
  · exact hr
  · have h1 := readField_length codec.offsetBits _ _ _ (by assumption)
    have h2 := readField_length codec.lengthBits _ _ _ (by assumption)
    omega

theorem decodeLoop_buffer_le (codec : Codec) (cap fuel : Nat) (mode : Mode) (out : List Nat)
    (bits : Bitstream) (h : out.length ≤ cap) :
    (decodeLoop codec cap fuel mode out bits).buffer.length ≤ cap := by
  induction fuel generalizing mode out bits with
  | zero => exact h
  | succ fuel ih =>
    unfold decodeLoop
    have hs := decodeStep_buffer_le codec cap mode out bits h
    split
    · rename_i o ho
      rw [ho] at hs
      exact hs
    · rename_i m out1 bits1 ho
      rw [ho] at hs
      exact ih m out1 bits1 hs

theorem decodeLoop_fuel (codec : Codec) (cap : Nat) (fuel1 fuel2 : Nat) (mode : Mode)
    (out : List Nat) (bits : Bitstream) (h1 : bits.length < fuel1) (h2 : bits.length < fuel2) :
    decodeLoop codec cap fuel1 mode out bits = decodeLoop codec cap fuel2 mode out bits := by
  induction fuel1 generalizing fuel2 mode out bits with
  | zero => omega
  | succ fuel1 ih =>
    cases fuel2 with
    | zero => omega
    | succ fuel2 =>
      unfold decodeLoop
      split
      · rfl
      · rename_i m out1 bits1 ho
        have := decodeStep_bits_lt codec cap mode out bits m out1 bits1 ho
        exact ih fuel2 m out1 bits1 (by omega) (by omega)

theorem run_stop (codec : Codec) (cap : Nat) (mode : Mode) (out : List Nat) (bits : Bitstream)
    (o : Outcome) (h : decodeStep codec cap mode out bits = .stop o) :
    run codec cap mode out bits = o := by
  simp [run, decodeLoop, h]

theorem run_next (codec : Codec) (cap : Nat) (mode : Mode) (out : List Nat) (bits : Bitstream)
    (m : Mode) (out1 : List Nat) (bits1 : Bitstream)
    (h : decodeStep codec cap mode out bits = .next m out1 bits1) :
    run codec cap mode out bits = run codec cap m out1 bits1 := by
  have hlt := decodeStep_bits_lt codec cap mode out bits m out1 bits1 h
  have h1 : decodeLoop codec cap (bits.length + 1) mode out bits =
      decodeLoop codec cap bits.length m out1 bits1 := by
    simp only [decodeLoop, h]
  unfold run
  rw [h1]
  exact decodeLoop_fuel codec cap _ _ m out1 bits1 hlt (Nat.lt_succ_self _)

theorem table_mem (codec : Codec) (m : Mode) (h : m < codec.tables.length) :
    table codec m ∈ codec.tables := by
  unfold table
  rw [List.getD_eq_getElem _ _ h]
  exact List.getElem_mem _

/-- What the well-formedness of a codec gives for the table of a mode. -/
theorem WellFormed.table (codec : Codec) (hwf : WellFormed codec) (m : Mode)
    (h : m < codec.tables.length) :
    (∀ e1 ∈ table codec m, ∀ e2 ∈ table codec m, e1.2 <+: e2.2 → e1 = e2) ∧
      (∀ e ∈ table codec m, e.2 ≠ []) :=
  ⟨hwf.2.1 _ (table_mem codec m h), hwf.2.2.1 _ (table_mem codec m h)⟩

theorem code_ne_nil (codec : Codec) (hwf : WellFormed codec) (m : Mode)
    (h : m < codec.tables.length) (s : Symbol) (code : List Bool)
    (hc : codeOf (table codec m) s = some code) : code ≠ [] :=
  (hwf.table codec m h).2 _ (codeOf_mem _ s code hc)

theorem step_literal (codec : Codec) (hwf : WellFormed codec) (cap : Nat) (mode : Mode)
    (hm : mode < codec.tables.length) (out : List Nat) (c : Nat) (code : List Bool)
    (hc : codeOf (table codec mode) (.literal c) = some code) (rest : Bitstream)
    (hcap : out.length < cap) :
    decodeStep codec cap mode out (code ++ rest) = .next mode (out ++ [c]) rest := by
  have hne := code_ne_nil codec hwf mode hm _ code hc
  have hres := resolve_codeOf _ (hwf.table codec mode hm).1 (hwf.table codec mode hm).2 _ code hc rest
  unfold decodeStep
  rw [if_neg (by omega), if_neg (by simp [hne]), hres]
  simp [hcap]

theorem step_switch (codec : Codec) (hwf : WellFormed codec) (cap : Nat) (mode : Mode)
    (hm : mode < codec.tables.length) (out : List Nat) (m : Mode) (code : List Bool)
    (hc : codeOf (table codec mode) (.switchMode m) = some code) (rest : Bitstream)
    (hcap : out.length < cap) :
    decodeStep codec cap mode out (code ++ rest) = .next m out rest := by
  have hne := code_ne_nil codec hwf mode hm _ code hc
  have hres := resolve_codeOf _ (hwf.table codec mode hm).1 (hwf.table codec mode hm).2 _ code hc rest
  unfold decodeStep
  rw [if_neg (by omega), if_neg (by simp [hne]), hres]

theorem step_end (codec : Codec) (hwf : WellFormed codec) (cap : Nat) (mode : Mode)
    (hm : mode < codec.tables.length) (out : List Nat) (code : List Bool)
    (hc : codeOf (table codec mode) .endOfString = some code) (rest : Bitstream) :
    decodeStep codec cap mode out (code ++ rest) = .stop ⟨out, none⟩ := by
  have hne := code_ne_nil codec hwf mode hm _ code hc
  have hres := resolve_codeOf _ (hwf.table codec mode hm).1 (hwf.table codec mode hm).2 _ code hc rest
  unfold decodeStep
  split
  · rfl
  · rw [if_neg (by simp [hne]), hres]

theorem step_backReference (codec : Codec) (hwf : WellFormed codec) (cap : Nat) (mode : Mode)
    (hm : mode < codec.tables.length) (out : List Nat) (code : List Bool)
    (hc : codeOf (table codec mode) .startBackReference = some code) (rest : Bitstream)
    (r : BackReference) (ho : r.offset < 2 ^ codec.offsetBits)
    (hl : r.length < 2 ^ codec.lengthBits) (hlo : r.length ≤ r.offset)
    (hout : r.offset ≤ out.length) (hcap : out.length + r.length ≤ cap) (hpos : 0 < r.length) :
    decodeStep codec cap mode out
        ((code ++ writeField codec.offsetBits r.offset ++ writeField codec.lengthBits r.length)
          ++ rest) =
      .next mode (out ++ (out.drop (out.length - r.offset)).take r.length) rest := by
  have hne := code_ne_nil codec hwf mode hm _ code hc
  have hres := resolve_codeOf _ (hwf.table codec mode hm).1 (hwf.table codec mode hm).2 _ code hc
    (writeField codec.offsetBits r.offset ++ (writeField codec.lengthBits r.length ++ rest))
  unfold decodeStep
  rw [if_neg (by omega), if_neg (by simp [hne])]
  simp only [List.append_assoc]
  rw [hres]
  simp only [readField_writeField _ _ _ ho, readField_writeField _ _ _ hl]
  rw [if_pos ⟨hlo, hout⟩, if_pos hcap]

/-! ## The encoder's choices -/

theorem findMode_spec (codec : Codec) (c : Nat) (m : Mode) (h : findMode codec c = some m) :
    m < codec.tables.length ∧ (codeOf (table codec m) (.literal c)).isSome = true := by
  unfold findMode at h
  have h1 := List.find?_some h
  have h2 := List.mem_of_find?_eq_some h
  exact ⟨List.mem_range.mp h2, h1⟩

theorem literalCode_spec (codec : Codec) (mode : Mode) (c : Nat) (bits : Bitstream) (m : Mode)
    (hm : mode < codec.tables.length) (h : literalCode codec mode c = some (bits, m)) :
    m < codec.tables.length ∧
      ((m = mode ∧ codeOf (table codec mode) (.literal c) = some bits) ∨
        ∃ sw code, bits = sw ++ code ∧
          codeOf (table codec mode) (.switchMode m) = some sw ∧
          codeOf (table codec m) (.literal c) = some code) := by
  unfold literalCode at h
  split at h
  · rename_i code hcode
    simp only [Option.some.injEq, Prod.mk.injEq] at h
    obtain ⟨h1, h2⟩ := h
    subst h1 h2
    exact ⟨hm, Or.inl ⟨rfl, hcode⟩⟩
  · split at h
    · exact absurd h (by simp)
    · rename_i m1 hfind
      split at h
      · rename_i sw code hsw hcode
        simp only [Option.some.injEq, Prod.mk.injEq] at h
        obtain ⟨h1, h2⟩ := h
        subst h1 h2
        exact ⟨(findMode_spec codec c _ hfind).1, Or.inr ⟨sw, code, rfl, hsw, hcode⟩⟩
      · exact absurd h (by simp)

theorem literalCode_isSome (codec : Codec) (hwf : WellFormed codec) (mode : Mode) (c : Nat)
    (hm : mode < codec.tables.length) (hc : supported codec c = true) :
    ∃ r, literalCode codec mode c = some r := by
  unfold literalCode
  cases h1 : codeOf (table codec mode) (.literal c) with
  | some code => exact ⟨_, rfl⟩
  | none =>
    unfold supported at hc
    cases h2 : findMode codec c with
    | none => simp [h2] at hc
    | some m =>
      obtain ⟨hlt, hsome⟩ := findMode_spec codec c m h2
      have hne : m ≠ mode := by
        intro heq
        subst heq
        simp [h1] at hsome
      have hsw := hwf.2.2.2.2 mode hm m hlt hne
      obtain ⟨sw, hsw⟩ := Option.isSome_iff_exists.mp hsw
      obtain ⟨code, hcode⟩ := Option.isSome_iff_exists.mp hsome
      simp only [hsw, hcode]
      exact ⟨_, rfl⟩

theorem literalSpan_isSome (codec : Codec) (hwf : WellFormed codec) (span : List Nat)
    (hs : ∀ c ∈ span, supported codec c = true) (mode : Mode)
    (hm : mode < codec.tables.length) :
    ∃ r, literalSpan codec mode span = some r := by
  induction span generalizing mode with
  | nil => exact ⟨_, rfl⟩
  | cons c cs ih =>
    obtain ⟨⟨b1, m1⟩, h1⟩ := literalCode_isSome codec hwf mode c hm (hs c (List.mem_cons_self _ _))
    have hm1 := (literalCode_spec codec mode c b1 m1 hm h1).1
    obtain ⟨⟨b2, m2⟩, h2⟩ := ih (fun x hx => hs x (List.mem_cons_of_mem _ hx)) m1 hm1
    exact ⟨(b1 ++ b2, m2), by simp [literalSpan, h1, h2]⟩

theorem commonLength_le_left (xs ys : List Nat) : commonLength xs ys ≤ xs.length := by
  induction xs generalizing ys with
  | nil => simp [commonLength]
  | cons a as ih =>
    cases ys with
    | nil => simp [commonLength]
    | cons b bs =>
      simp only [commonLength]
      split
      · have := ih bs
        simp only [List.length_cons]; omega
      · omega

theorem commonLength_le_right (xs ys : List Nat) : commonLength xs ys ≤ ys.length := by
  induction xs generalizing ys with
  | nil => simp [commonLength]
  | cons a as ih =>
    cases ys with
    | nil => simp [commonLength]
    | cons b bs =>
      simp only [commonLength]
      split
      · have := ih bs
        simp only [List.length_cons]; omega
      · omega

theorem take_of_le_commonLength (xs ys : List Nat) (k : Nat) (h : k ≤ commonLength xs ys) :
    xs.take k = ys.take k := by
  induction xs generalizing ys k with
  | nil =>
    have : k = 0 := by simpa [commonLength] using h
    subst this; simp
  | cons a as ih =>
    cases ys with
    | nil =>
      have : k = 0 := by simpa [commonLength] using h
      subst this; simp
    | cons b bs =>
      cases k with
      | zero => simp
      | succ k =>
        simp only [commonLength] at h
        split at h
        · rename_i hab
          subst hab
          simp only [List.take_succ_cons, List.cons.injEq, true_and]
          exact ih bs k (by omega)
        · omega

theorem candidate_spec (codec : Codec) (done rest : List Nat) (o : Nat)
    (h1 : o ≤ done.length) (h2 : o < 2 ^ codec.offsetBits)
    (hpos : 0 < (candidate codec done rest o).length) :
    ValidBackReference codec done rest (candidate codec done rest o) := by
  have hl := commonLength_le_left (done.drop (done.length - o)) rest
  have hr := commonLength_le_right (done.drop (done.length - o)) rest
  have hp : 0 < 2 ^ codec.lengthBits := Nat.two_pow_pos _
  have e1 : (candidate codec done rest o).length =
      min (commonLength (done.drop (done.length - o)) rest) (2 ^ codec.lengthBits - 1) := rfl
  have e2 : (candidate codec done rest o).offset = o := rfl
  have m1 := Nat.min_le_left (commonLength (done.drop (done.length - o)) rest)
    (2 ^ codec.lengthBits - 1)
  have m2 := Nat.min_le_right (commonLength (done.drop (done.length - o)) rest)
    (2 ^ codec.lengthBits - 1)
  rw [← e1] at m1 m2
  simp only [List.length_drop] at hl
  unfold ValidBackReference
  rw [e2]
  refine ⟨hpos, by omega, h1, h2, by omega, by omega, ?_⟩
  exact take_of_le_commonLength _ _ _ m1

theorem foldl_best (codec : Codec) (done rest : List Nat) (offsets : List Nat)
    (init : BackReference) :
    offsets.foldl
        (fun (best : BackReference) o =>
          if best.length < (candidate codec done rest o).length then candidate codec done rest o
          else best) init = init ∨
      ∃ o ∈ offsets, offsets.foldl
        (fun (best : BackReference) o =>
          if best.length < (candidate codec done rest o).length then candidate codec done rest o
          else best) init = candidate codec done rest o := by
  induction offsets generalizing init with
  | nil => exact Or.inl rfl
  | cons o os ih =>
    simp only [List.foldl_cons]
    split
    · rcases ih (candidate codec done rest o) with h | ⟨o1, ho1, h⟩
      · exact Or.inr ⟨o, List.mem_cons_self _ _, h⟩
      · exact Or.inr ⟨o1, List.mem_cons_of_mem _ ho1, h⟩
    · rcases ih init with h | ⟨o1, ho1, h⟩
      · exact Or.inl h
      · exact Or.inr ⟨o1, List.mem_cons_of_mem _ ho1, h⟩

theorem longestBackReference_spec (codec : Codec) (done rest : List Nat) (r : BackReference)
    (h : longestBackReference codec done rest = some r) :
    ValidBackReference codec done rest r := by
  unfold longestBackReference at h
  simp only at h
  split at h
  · exact absurd h (by simp)
  · rename_i hne
    simp only [Option.some.injEq] at h
    rcases foldl_best codec done rest
      ((List.range (min done.length (2 ^ codec.offsetBits - 1))).map (fun o => o + 1))
      ⟨0, 0⟩ with h0 | ⟨o, ho, h1⟩
    · rw [h0] at hne
      exact absurd rfl hne
    · rw [h1] at h hne
      subst h
      simp only [List.mem_map, List.mem_range] at ho
      obtain ⟨a, ha, rfl⟩ := ho
      have hp : 0 < 2 ^ codec.offsetBits := Nat.two_pow_pos _
      exact candidate_spec codec done rest (a + 1) (by omega) (by omega) (by omega)

theorem chooseBackReference_spec (codec : Codec) (mode : Mode) (done rest : List Nat)
    (r : BackReference) (bits : Bitstream)
    (h : chooseBackReference codec mode done rest = some (r, bits)) :
    ValidBackReference codec done rest r ∧ backReferenceBits codec mode r = some bits := by
  unfold chooseBackReference at h
  split at h
  · exact absurd h (by simp)
  · rename_i r1 hr1
    split at h
    · rename_i bits1 lits m1 hb hl
      split at h
      · simp only [Option.some.injEq, Prod.mk.injEq] at h
        obtain ⟨h1, h2⟩ := h
        subst h1 h2
        exact ⟨longestBackReference_spec codec done rest _ hr1, hb⟩
      · exact absurd h (by simp)
    · exact absurd h (by simp)

/-! ## The encoder's loop against the decoder's loop -/

theorem encodeLoop_isSome (codec : Codec) (hwf : WellFormed codec) (fuel : Nat) (mode : Mode)
    (done rest : List Nat) (hm : mode < codec.tables.length)
    (hs : ∀ c ∈ rest, supported codec c = true) (hf : rest.length < fuel) :
    ∃ bits, encodeLoop codec fuel mode done rest = some bits := by
  induction fuel generalizing mode done rest with
  | zero => omega
  | succ fuel ih =>
    cases rest with
    | nil =>
      unfold encodeLoop
      exact Option.isSome_iff_exists.mp (hwf.2.2.2.1 _ (table_mem codec mode hm))
    | cons c cs =>
      unfold encodeLoop
      cases hch : chooseBackReference codec mode done (c :: cs) with
      | some rb =>
        obtain ⟨r, bits⟩ := rb
        obtain ⟨hv, -⟩ := chooseBackReference_spec codec mode done (c :: cs) r bits hch
        have hpos := hv.1
        have hlen : ((c :: cs).drop r.length).length < fuel := by
          rw [List.length_drop]
          simp only [List.length_cons] at hf ⊢
          omega
        obtain ⟨more, hmore⟩ := ih mode (done ++ (c :: cs).take r.length)
          ((c :: cs).drop r.length) hm (fun x hx => hs x (List.mem_of_mem_drop hx)) hlen
        exact ⟨bits ++ more, by simp [hmore]⟩
      | none =>
        obtain ⟨⟨bits, m⟩, hlit⟩ :=
          literalCode_isSome codec hwf mode c hm (hs c (List.mem_cons_self _ _))
        have hm1 := (literalCode_spec codec mode c bits m hm hlit).1
        obtain ⟨more, hmore⟩ := ih m (done ++ [c]) cs hm1
          (fun x hx => hs x (List.mem_cons_of_mem _ hx))
          (by simp only [List.length_cons] at hf; omega)
        exact ⟨bits ++ more, by simp [hlit, hmore]⟩

theorem run_encodeLoop (codec : Codec) (hwf : WellFormed codec) (cap fuel : Nat) (mode : Mode)
    (done rest : List Nat) (bits : Bitstream) (hm : mode < codec.tables.length)
    (he : encodeLoop codec fuel mode done rest = some bits)
    (hcap : done.length + rest.length ≤ cap) (tail : Bitstream) :
    run codec cap mode done (bits ++ tail) = ⟨done ++ rest, none⟩ := by
  induction fuel generalizing mode done rest bits with
  | zero => simp [encodeLoop] at he
  | succ fuel ih =>
    cases rest with
    | nil =>
      unfold encodeLoop at he
      rw [List.append_nil]
      exact run_stop _ _ _ _ _ _ (step_end codec hwf cap mode hm done bits he tail)
    | cons c cs =>
      have hlt : done.length < cap := by simp only [List.length_cons] at hcap; omega
      unfold encodeLoop at he
      cases hch : chooseBackReference codec mode done (c :: cs) with
      | some rb =>
        obtain ⟨r, rbits⟩ := rb
        rw [hch] at he
        simp only [Option.map_eq_some'] at he
        obtain ⟨more, hmore, rfl⟩ := he
        obtain ⟨hv, hb⟩ := chooseBackReference_spec codec mode done (c :: cs) r rbits hch
        obtain ⟨hpos, hlo, hout, ho, hl, hrest, hcopy⟩ := hv
        unfold backReferenceBits at hb
        cases hcode : codeOf (table codec mode) .startBackReference with
        | none => simp [hcode] at hb
        | some code =>
          rw [hcode] at hb
          simp only [Option.some.injEq] at hb
          subst hb
          have hstep := step_backReference codec hwf cap mode hm done code hcode (more ++ tail)
            r ho hl hlo hout (by omega) hpos
          rw [List.append_assoc _ more tail, run_next _ _ _ _ _ _ _ _ hstep, hcopy]
          have hih := ih mode (done ++ (c :: cs).take r.length) ((c :: cs).drop r.length) more hm
            hmore (by
              rw [List.length_append, List.length_take, List.length_drop]
              omega)
          rw [hih, List.append_assoc, List.take_append_drop]
      | none =>
        rw [hch] at he
        cases hlit : literalCode codec mode c with
        | none => simp [hlit] at he
        | some bm =>
          obtain ⟨lbits, m⟩ := bm
          rw [hlit] at he
          simp only [Option.map_eq_some'] at he
          obtain ⟨more, hmore, rfl⟩ := he
          obtain ⟨hm1, hcases⟩ := literalCode_spec codec mode c lbits m hm hlit
          have hih := ih m (done ++ [c]) cs more hm1 hmore (by
            simp only [List.length_append, List.length_cons, List.length_nil] at hcap ⊢
            omega)
          rcases hcases with ⟨rfl, hcode⟩ | ⟨sw, code, rfl, hsw, hcode⟩
          · have hstep := step_literal codec hwf cap m hm done c lbits hcode (more ++ tail) hlt
            rw [List.append_assoc, run_next _ _ _ _ _ _ _ _ hstep, hih]
            simp
          · have hstep1 := step_switch codec hwf cap mode hm done m sw hsw
              (code ++ (more ++ tail)) hlt
            have hstep2 := step_literal codec hwf cap m hm1 done c code hcode (more ++ tail) hlt
            rw [List.append_assoc, List.append_assoc, run_next _ _ _ _ _ _ _ _ hstep1,
              run_next _ _ _ _ _ _ _ _ hstep2, hih]
            simp

/-- The round trip on bitstreams and bytes: what `encode` produces decodes to the
text, whatever bytes follow and whatever declared length covers the blob. -/
theorem decodeBuffer_encode (codec : Codec) (hwf : WellFormed codec) (text : List Nat)
    (hs : ∀ c ∈ text, supported codec c = true) (cap : Nat) (hcap : text.length ≤ cap) :
    ∃ blob, encode codec text = some blob ∧
      ∀ (tail : List Nat) (declared : Nat), blob.length ≤ declared →
        decodeBuffer codec (blob ++ tail) declared cap = ⟨text, none⟩ := by
  obtain ⟨bits, hbits⟩ := encodeLoop_isSome codec hwf (text.length + 1) codec.defaultMode []
    text hwf.1 hs (Nat.lt_succ_self _)
  refine ⟨pack codec.msbFirst codec.fillerBit bits, by simp [encode, hbits], ?_⟩
  intro tail declared hd
  obtain ⟨k, hk⟩ := unpack_pack codec.msbFirst codec.fillerBit bits
  have htake : (pack codec.msbFirst codec.fillerBit bits ++ tail).take declared =
      pack codec.msbFirst codec.fillerBit bits ++
        tail.take (declared - (pack codec.msbFirst codec.fillerBit bits).length) := by
    rw [List.take_append_eq_append_take, List.take_of_length_le hd]
  have hrun := run_encodeLoop codec hwf cap (text.length + 1) codec.defaultMode [] text bits
    hwf.1 hbits (by simpa using hcap)
    (List.replicate k codec.fillerBit ++ unpack codec.msbFirst
      (tail.take (declared - (pack codec.msbFirst codec.fillerBit bits).length)))
  unfold decodeBuffer
  rw [htake, unpack_append, hk, List.append_assoc]
  simpa [run] using hrun

/-! ## The codec run on examples -/

/-- The encoder on `tinyText`: six literals, a back-reference with offset 6 and
length 6, a mode switch, two digits, a switch back, a literal, the end code and
three filler bits. -/
theorem encode_tinyText : encode tinyCodec tinyText = some [17, 26, 218, 12, 56] := by
  set_option maxRecDepth 100000 in decide

/-- The decoder on that blob with room for the whole text. -/
theorem decodeBuffer_tinyBlob :
    decodeBuffer tinyCodec [17, 26, 218, 12, 56] 5 15 = ⟨tinyText, none⟩ := by
  set_option maxRecDepth 100000 in decide

/-- The decoder on that blob with room for 9 characters: the back-reference does
not fit; what fits is written and the run fails with `OutputTooSmall`. -/
theorem decodeBuffer_tinyBlob_small :
    decodeBuffer tinyCodec [17, 26, 218, 12, 56] 5 9 =
      ⟨[97, 98, 97, 98, 97, 98, 97, 98, 97], some .OutputTooSmall⟩ := by
  set_option maxRecDepth 100000 in decide

/-- The decoder on malformed input: a back-reference into an empty output, and a
stream that ends inside a symbol. -/
theorem decodeBuffer_malformed :
    decodeBuffer tinyCodec [0xD0] 1 4 = ⟨[], some .InvalidBackReference⟩ ∧
      decodeBuffer tinyCodec [0x1C] 1 4 = ⟨[97, 98, 98], some .TruncatedInput⟩ := by
  set_option maxRecDepth 100000 in decide

/-! ## Properties of the header -/

/-- C1 (as stated, refuted): the size constant is not the number of data bytes of
the array, so the value line 31 passes as second argument is not the byte count
of the blob. -/
theorem size_ne_dataBytes_length :
    HTTP_SCRIPT_MODULE_TEMPLATE_SIZE ≠
      (dataBytes HTTP_SCRIPT_MODULE_TEMPLATE_COMPRESSED).length := by
  rw [HTTP_SCRIPT_MODULE_TEMPLATE_COMPRESSED, dataBytes_charArrayOfLiteral,
    stringLiteral_length]
  decide

/-- C1 (amended): the size constant is 589, which is the number of data bytes of
the array (441, the figure of the comment) plus 148; line 31 hands `Decompress`
the array as first argument and this 589 as second argument. -/
theorem size_eq_dataBytes_length_add :
    HTTP_SCRIPT_MODULE_TEMPLATE_SIZE =
        (dataBytes HTTP_SCRIPT_MODULE_TEMPLATE_COMPRESSED).length + 148 ∧
      (dataBytes HTTP_SCRIPT_MODULE_TEMPLATE_COMPRESSED).length = commentCompressedSize ∧
      decompressArgs flash =
        (HTTP_SCRIPT_MODULE_TEMPLATE_COMPRESSED, HTTP_SCRIPT_MODULE_TEMPLATE_SIZE) ∧
      (decompressArgs flash).2 = 589 := by
  rw [HTTP_SCRIPT_MODULE_TEMPLATE_COMPRESSED, dataBytes_charArrayOfLiteral,
    stringLiteral_length]
  exact ⟨rfl, rfl, rfl, rfl⟩

/-- C2: the array holds exactly 441 data bytes, the figure of the comment
`compressed size 441 bytes`: the concatenated literal has length 441, it is the
data of the array, and the array with its terminating NUL has 442 elements. -/
theorem compressed_dataBytes_length :
    stringLiteral.length = 441 ∧
      dataBytes HTTP_SCRIPT_MODULE_TEMPLATE_COMPRESSED = stringLiteral ∧
      (dataBytes HTTP_SCRIPT_MODULE_TEMPLATE_COMPRESSED).length = commentCompressedSize ∧
      HTTP_SCRIPT_MODULE_TEMPLATE_COMPRESSED.length = 442 := by
  refine ⟨stringLiteral_length, dataBytes_charArrayOfLiteral _, ?_, ?_⟩
  · rw [HTTP_SCRIPT_MODULE_TEMPLATE_COMPRESSED, dataBytes_charArrayOfLiteral,
      stringLiteral_length]
    rfl
  · simp [HTTP_SCRIPT_MODULE_TEMPLATE_COMPRESSED, charArrayOfLiteral, stringLiteral_length]

/-- C3: the size constant is 589 and is strictly larger than the number of data
bytes of the array: the stored blob is strictly shorter than the size line 31
passes to `Decompress`. -/
theorem dataBytes_length_lt_size :
    HTTP_SCRIPT_MODULE_TEMPLATE_SIZE = 589 ∧
      (dataBytes HTTP_SCRIPT_MODULE_TEMPLATE_COMPRESSED).length <
        HTTP_SCRIPT_MODULE_TEMPLATE_SIZE ∧
      (dataBytes (decompressArgs flash).1).length < (decompressArgs flash).2 := by
  have h : (dataBytes HTTP_SCRIPT_MODULE_TEMPLATE_COMPRESSED).length = 441 := by
    rw [HTTP_SCRIPT_MODULE_TEMPLATE_COMPRESSED, dataBytes_charArrayOfLiteral,
      stringLiteral_length]
  refine ⟨rfl, ?_, ?_⟩
  · rw [h]; decide
  · show (dataBytes HTTP_SCRIPT_MODULE_TEMPLATE_COMPRESSED).length <
      HTTP_SCRIPT_MODULE_TEMPLATE_SIZE
    rw [h]; decide

/-- C6: line 31 is one call of `Decompress` on the two constants followed by
`c_str()`; for every function `Decompress` (and every `c_str`), two evaluations
in a row give the same string, the value is `c_str` of `Decompress` applied to
the array and the size constant, and after each evaluation the array and the
size constant are what they were. -/
theorem template_evaluated_twice {σ ρ : Type} (Decompress : List Nat → Nat → σ)
    (c_str : σ → ρ) :
    (HTTP_SCRIPT_MODULE_TEMPLATE Decompress c_str flash).1 =
        c_str (Decompress HTTP_SCRIPT_MODULE_TEMPLATE_COMPRESSED
          HTTP_SCRIPT_MODULE_TEMPLATE_SIZE) ∧
      (HTTP_SCRIPT_MODULE_TEMPLATE Decompress c_str
          (HTTP_SCRIPT_MODULE_TEMPLATE Decompress c_str flash).2).1 =
        (HTTP_SCRIPT_MODULE_TEMPLATE Decompress c_str flash).1 ∧
      (HTTP_SCRIPT_MODULE_TEMPLATE Decompress c_str flash).2 = flash ∧
      (HTTP_SCRIPT_MODULE_TEMPLATE Decompress c_str
          (HTTP_SCRIPT_MODULE_TEMPLATE Decompress c_str flash).2).2 = flash :=
  ⟨rfl, rfl, rfl, rfl⟩

/-- C7: none of the 441 data bytes of the array is `0x00`; the first NUL of the
array is the implicit terminator at index 441, and `strlen` of the array is 441,
the full data length. -/
theorem compressed_strlen :
    0 ∉ dataBytes HTTP_SCRIPT_MODULE_TEMPLATE_COMPRESSED ∧
      HTTP_SCRIPT_MODULE_TEMPLATE_COMPRESSED.indexOf 0 = 441 ∧
      HTTP_SCRIPT_MODULE_TEMPLATE_COMPRESSED[441]? = some 0 ∧
      strlen HTTP_SCRIPT_MODULE_TEMPLATE_COMPRESSED = 441 ∧
      strlen HTTP_SCRIPT_MODULE_TEMPLATE_COMPRESSED =
        (dataBytes HTTP_SCRIPT_MODULE_TEMPLATE_COMPRESSED).length := by
  have hs : strlen HTTP_SCRIPT_MODULE_TEMPLATE_COMPRESSED = 441 := by
    rw [HTTP_SCRIPT_MODULE_TEMPLATE_COMPRESSED,
      strlen_charArrayOfLiteral _ stringLiteral_nonzero, stringLiteral_length]
  refine ⟨?_, ?_, ?_, hs, ?_⟩
  · rw [HTTP_SCRIPT_MODULE_TEMPLATE_COMPRESSED, dataBytes_charArrayOfLiteral]
    exact fun h => stringLiteral_nonzero 0 h rfl
  · set_option maxRecDepth 100000 in decide
  · set_option maxRecDepth 100000 in decide
  · rw [hs, HTTP_SCRIPT_MODULE_TEMPLATE_COMPRESSED, dataBytes_charArrayOfLiteral,
      stringLiteral_length]

/-- C8: every byte `0x2A` among the data bytes of the array is not the last data
byte and is immediately followed by a byte equal to `0x01` or `0x02`. -/
theorem compressed_escapes (i : Nat)
    (h : (dataBytes HTTP_SCRIPT_MODULE_TEMPLATE_COMPRESSED)[i]? = some 0x2A) :
    i + 1 < (dataBytes HTTP_SCRIPT_MODULE_TEMPLATE_COMPRESSED).length ∧
      ((dataBytes HTTP_SCRIPT_MODULE_TEMPLATE_COMPRESSED)[i + 1]? = some 0x01 ∨
        (dataBytes HTTP_SCRIPT_MODULE_TEMPLATE_COMPRESSED)[i + 1]? = some 0x02) := by
  rw [HTTP_SCRIPT_MODULE_TEMPLATE_COMPRESSED, dataBytes_charArrayOfLiteral] at h ⊢
  exact escapesWellFormed_spec stringLiteral stringLiteral_escapes i h

/-- C8 at the first escape marker of the array, index 222 (line 18 of the header,
`\x2A\x01`). -/
theorem compressed_escapes_at_222 :
    (dataBytes HTTP_SCRIPT_MODULE_TEMPLATE_COMPRESSED)[222]? = some 0x2A ∧
      222 + 1 < (dataBytes HTTP_SCRIPT_MODULE_TEMPLATE_COMPRESSED).length ∧
      ((dataBytes HTTP_SCRIPT_MODULE_TEMPLATE_COMPRESSED)[222 + 1]? = some 0x01 ∨
        (dataBytes HTTP_SCRIPT_MODULE_TEMPLATE_COMPRESSED)[222 + 1]? = some 0x02) :=
  have h : (dataBytes HTTP_SCRIPT_MODULE_TEMPLATE_COMPRESSED)[222]? = some 0x2A := by
    set_option maxRecDepth 100000 in decide
  ⟨h, compressed_escapes 222 h⟩

/-! ## Properties of the codec -/

/-- Round trip of the modelled codec.  For a well-formed codec, every text over the
supported character set and within the output capacity is encoded, and decoding
the blob with its byte count as declared length gives back exactly the text. -/
theorem decode_encode (codec : Codec) (hwf : WellFormed codec) (text : List Nat)
    (hs : ∀ c ∈ text, supported codec c = true) (cap : Nat) (hcap : text.length ≤ cap) :
    ∃ blob, encode codec text = some blob ∧
      decode codec blob blob.length cap = .ok text := by
  obtain ⟨blob, henc, hdec⟩ := decodeBuffer_encode codec hwf text hs cap hcap
  refine ⟨blob, henc, ?_⟩
  have h := hdec [] blob.length (Nat.le_refl _)
  rw [List.append_nil] at h
  simp only [decode, h]

/-- The round trip at `tinyCodec` and `tinyText`, with room for 15 characters: the
codec is well-formed, the text is supported and fits, and the round trip holds. -/
theorem decode_encode_tiny :
    WellFormed tinyCodec ∧ (∀ c ∈ tinyText, supported tinyCodec c = true) ∧
      tinyText.length ≤ 15 ∧
      ∃ blob, encode tinyCodec tinyText = some blob ∧
        decode tinyCodec blob blob.length 15 = .ok tinyText :=
  have hwf : WellFormed tinyCodec := by unfold WellFormed; decide
  have hs : ∀ c ∈ tinyText, supported tinyCodec c = true := by decide
  have hcap : tinyText.length ≤ 15 := by decide
  ⟨hwf, hs, hcap, decode_encode tinyCodec hwf tinyText hs 15 hcap⟩

/-- C5: bounded output.  For every codec, every input byte sequence (malformed ones
included), every declared length and every output capacity, the decoder ends with
at most `output_capacity` characters in the output buffer, whether it succeeds or
fails, and so it does after any number of steps of its run (a run cut after `steps`
steps ends with the buffer of that moment).  A text it returns is within the
capacity. -/
theorem decode_bounded_output (codec : Codec) (compressed : List Nat)
    (declared_length output_capacity : Nat) :
    (decodeBuffer codec compressed declared_length output_capacity).buffer.length ≤
        output_capacity ∧
      (∀ steps : Nat,
        (decodeLoop codec output_capacity steps codec.defaultMode []
          (unpack codec.msbFirst (compressed.take declared_length))).buffer.length ≤
            output_capacity) ∧
      ∀ text, decode codec compressed declared_length output_capacity = .ok text →
        text.length ≤ output_capacity := by
  have hb : (decodeBuffer codec compressed declared_length output_capacity).buffer.length ≤
      output_capacity :=
    decodeLoop_buffer_le codec output_capacity _ codec.defaultMode [] _ (Nat.zero_le _)
  refine ⟨hb, ?_, ?_⟩
  · intro steps
    exact decodeLoop_buffer_le codec output_capacity steps codec.defaultMode [] _
      (Nat.zero_le _)
  · intro text htext
    unfold decode at htext
    split at htext
    · rename_i t hout
      rw [hout] at hb
      simp only [Except.ok.injEq] at htext
      subst htext
      exact hb
    · exact absurd htext (by simp)

end Tasmota
